import Mathlib

/-!
Verification of the pybel-web (bel-commons) query/experiment data model.

This file is a shallow embedding of the parts of the repository that the
checked properties are about:

* `src/pybel_web/models.py` — the `Query` ORM model with its stored
  `seeding`/`pipeline` text columns, the cached in-memory
  `pybel.struct.query.Query` object (`_get_query`), `build_appended`,
  the self-referential `parent` relationship with its cascading delete,
  the `Experiment` model (`dump_results`, `get_data_list`), the `Omic`
  model (`get_source_dict`) and the `Report.stalled` property.
* `src/pybel_web/celery_worker.py` — the completion step of `run_cmpa`
  and the error handling of the graph-insert phase of `async_parser`.
* `src/bel_commons/views/experiment_service.py` —
  `get_dataframe_from_experiments`.

Python dictionaries are modelled as association lists in insertion order,
pickled blob columns by their parsed contents (pickling round-trips), the
textual seeding/pipeline columns by their parsed list form (the pybel
serialization is lossless), floats by rationals, and wall-clock times by
integer second counts supplied as explicit arguments.
-/

/-- A pipeline step of a `pybel.struct.pipeline.Pipeline`:
function name, positional arguments and keyword arguments
(spec section 3: each step is a function-name, args, kwargs record). -/
structure Step where
  name : String
  args : List String
  kwargs : List (String × String)
deriving DecidableEq, Repr

/-- One seeding operation of a `pybel.struct.query.Seeding`:
a kind and its parameters. -/
structure SeedOp where
  kind : String
  data : List String
deriving DecidableEq, Repr

/-- The in-memory `pybel.struct.query.Query` held by a query row after
`Query._get_query` (models.py lines 728-737): network ids, seeding and
pipeline. The pybel `Pipeline.append` mutates the `pipeline` list of this
object in place. -/
structure PybelQuery where
  networkIds : List Nat
  seeding : List SeedOp
  pipeline : List Step
deriving DecidableEq, Repr

/-- An `Assembly` row (models.py lines 587-663): an optional unique name
and the ids of its member networks. -/
structure Assembly where
  name : Option String
  networks : List Nat
deriving DecidableEq, Repr

/-- A `Query` ORM row (models.py lines 666-890) together with the
transient `_query` attribute that `_get_query` caches on the instance.
The `seeding` and `pipeline` columns are stored as text; they are
modelled here in parsed form, `none` standing for an empty/absent
column (falsy in Python). -/
structure QueryState where
  id : Option Nat
  assembly : Assembly
  seeding : Option (List SeedOp)
  pipeline : Option (List Step)
  parentId : Option Nat
  cache : Option PybelQuery
deriving DecidableEq, Repr

/-- Models `Query._get_query` (models.py lines 728-737): return the cached
in-memory query if present, otherwise build it from the assembly's network
ids and the parsed seeding/pipeline columns and cache it. -/
def Query.getQueryCached (s : QueryState) : PybelQuery × QueryState :=
  match s.cache with
  | some q => (q, s)
  | none =>
    let q : PybelQuery :=
      { networkIds := s.assembly.networks
        seeding := s.seeding.getD []
        pipeline := s.pipeline.getD [] }
    (q, { s with cache := some q })

/-- The pybel `Pipeline.append` protocol effect: the step is appended to
the protocol list of the same pipeline object (mutation in place on the
Python side; name validation by the external registry is not modelled). -/
def Pipeline.appendStep (p : List Step) (st : Step) : List Step :=
  p ++ [st]

/-- Models `Query.build_appended` (models.py lines 854-873): obtain the
cached in-memory query, append the step to its pipeline (mutating the
cached object), and build a child row with `parent_id = self.id`, the
same assembly object, a copy of the stored seeding column, and the dumped
extended pipeline. Returns `(child, parent after the call)`. -/
def Query.buildAppended (s : QueryState) (st : Step) : QueryState × QueryState :=
  let qs := Query.getQueryCached s
  let q := qs.1
  let s1 := qs.2
  let q1 : PybelQuery := { q with pipeline := Pipeline.appendStep q.pipeline st }
  let s2 : QueryState := { s1 with cache := some q1 }
  let child : QueryState :=
    { id := none
      assembly := s.assembly
      seeding := s.seeding
      pipeline := some q1.pipeline
      parentId := s.id
      cache := none }
  (child, s2)

/-- The pipeline the query currently carries in memory: the cached
query object's pipeline when a cache exists, otherwise the parsed
stored column (what `_get_query` would build). -/
def Query.effectivePipeline (s : QueryState) : List Step :=
  match s.cache with
  | some q => q.pipeline
  | none => s.pipeline.getD []

/-- A query whose in-memory pybel query object is already materialized
(as after `to_json`, `run` or an earlier `build_appended`), with an empty
pipeline. Used to exhibit the cache mutation. -/
def demoCachedQuery : QueryState :=
  { id := some 1
    assembly := { name := none, networks := [1] }
    seeding := none
    pipeline := none
    parentId := none
    cache := some { networkIds := [1], seeding := [], pipeline := [] } }

/-- A freshly loaded query row: no in-memory cache yet. -/
def demoFreshQuery : QueryState :=
  { id := some 2
    assembly := { name := none, networks := [1, 2] }
    seeding := none
    pipeline := some [{ name := "remove_pathologies", args := [], kwargs := [] }]
    parentId := none
    cache := none }

/-- A concrete pipeline step used in the examples. -/
def demoStep : Step :=
  { name := "infer_central_dogma", args := [], kwargs := [] }

/-- C1 counterexample: `build_appended` does not leave the pipeline of the
in-memory query object held by the parent unchanged. For a parent whose
cached pybel query has an empty pipeline, after the call the cached
object's pipeline contains the appended step. -/
theorem buildAppended_mutates_cached_pipeline :
    ((Query.buildAppended demoCachedQuery demoStep).2.cache.map PybelQuery.pipeline) ≠
      (demoCachedQuery.cache.map PybelQuery.pipeline) := by
  decide

/-- C1 (amended): for every query and step, `build_appended` leaves every
stored column of the parent row unchanged (id, assembly, seeding, pipeline,
parent) and returns a distinct new child row (fresh id, parent pointing at
the parent) instead of mutating the parent row in place; however the
in-memory pybel query object cached on the parent has the step appended to
its pipeline. -/
theorem buildAppended_preserves_stored_fields (s : QueryState) (st : Step) :
    (Query.buildAppended s st).2.id = s.id ∧
    (Query.buildAppended s st).2.assembly = s.assembly ∧
    (Query.buildAppended s st).2.seeding = s.seeding ∧
    (Query.buildAppended s st).2.pipeline = s.pipeline ∧
    (Query.buildAppended s st).2.parentId = s.parentId ∧
    (Query.buildAppended s st).1.id = none ∧
    (Query.buildAppended s st).1.parentId = s.id ∧
    ((Query.buildAppended s st).2.cache.map PybelQuery.pipeline) =
      some (Query.effectivePipeline s ++ [st]) := by
  cases hc : s.cache <;>
    simp [Query.buildAppended, Query.getQueryCached, Query.effectivePipeline,
      Pipeline.appendStep, hc]

/-- C4: the child built by `build_appended` shares the parent's assembly
object, copies the parent's stored seeding column verbatim, points back at
the parent, and its stored pipeline is the parent's in-memory pipeline with
exactly the given step appended at the end; for a freshly loaded parent
(no cached query object) that in-memory pipeline is the parsed stored
column. No graph is materialized: the construction consumes and produces
only query rows. -/
theorem buildAppended_child_structure (s : QueryState) (st : Step) :
    (Query.buildAppended s st).1.assembly = s.assembly ∧
    (Query.buildAppended s st).1.seeding = s.seeding ∧
    (Query.buildAppended s st).1.parentId = s.id ∧
    (Query.buildAppended s st).1.pipeline =
      some (Query.effectivePipeline s ++ [st]) ∧
    (s.cache = none →
      (Query.buildAppended s st).1.pipeline = some (s.pipeline.getD [] ++ [st])) := by
  cases hc : s.cache <;>
    simp [Query.buildAppended, Query.getQueryCached, Query.effectivePipeline,
      Pipeline.appendStep, hc]

/-- C4 witness: instantiating the child-structure theorem on a concrete
freshly loaded query discharges the no-cache hypothesis. -/
theorem buildAppended_child_structure_witness :
    (Query.buildAppended demoFreshQuery demoStep).1.pipeline =
      some (demoFreshQuery.pipeline.getD [] ++ [demoStep]) :=
  (buildAppended_child_structure demoFreshQuery demoStep).2.2.2.2 rfl

/-- A `Report` row (models.py lines 193-305), restricted to the fields the
staleness and completion predicates read: creation timestamp (seconds),
the nullable `completed` flag and the nullable error `message`. -/
structure Report where
  created : ℤ
  completed : Option Bool
  message : Option String
deriving DecidableEq, Repr

/-- The staleness threshold of `Report.stalled`:
`datetime.timedelta(hours=3)` in seconds. -/
def Report.stalledThreshold : ℤ := 3 * 3600

/-- Models `Report.stalled` (models.py lines 271-277): true when more than
three hours have passed since `created`. The current wall-clock time
(`datetime.datetime.utcnow()`) is an explicit argument. -/
def Report.stalled (r : Report) (now : ℤ) : Bool :=
  decide (now - r.created > Report.stalledThreshold)

/-- Models `Report.incomplete` (models.py lines 261-264):
`completed is None and not message` (an empty string is falsy). -/
def Report.incomplete (r : Report) : Bool :=
  decide (r.completed = none) && decide (r.message.getD "" = "")

/-- C7 counterexample: a report that finished successfully four hours
after creation is still reported as stalled, although it is complete. -/
theorem completed_report_is_stalled :
    Report.stalled { created := 0, completed := some true, message := none } (4 * 3600) = true ∧
    Report.incomplete { created := 0, completed := some true, message := none } = false := by
  decide

/-- C7 (amended): `stalled` holds exactly when more than the fixed
three-hour threshold has elapsed since creation; it does not consult the
completion state, so two reports with the same creation time have the same
staleness regardless of their `completed` flag or message. -/
theorem stalled_iff_age_exceeds_threshold (created : ℤ) (ca cb : Option Bool)
    (ma mb : Option String) (now : ℤ) :
    Report.stalled { created := created, completed := ca, message := ma } now =
      Report.stalled { created := created, completed := cb, message := mb } now ∧
    (Report.stalled { created := created, completed := ca, message := ma } now = true ↔
      now - created > 3 * 3600) := by
  simp [Report.stalled, Report.stalledThreshold]

/-- Inserting into a Python dict: replace the value when the key is
already present (keeping its position), otherwise add the binding at the
end. Dicts preserve insertion order. -/
def dictInsert (acc : List (String × ℚ)) (g : String) (v : ℚ) : List (String × ℚ) :=
  match acc with
  | [] => [(g, v)]
  | (k, w) :: rest =>
    if k = g then (k, v) :: rest else (k, w) :: dictInsert rest g v

/-- Lookup in an association list built by `dictInsert`. -/
def dictLookup (m : List (String × ℚ)) (g : String) : Option ℚ :=
  (m.find? (fun p => decide (p.1 = g))).map Prod.snd

/-- Models `Omic.get_source_dict` (models.py lines 91-107): from the raw
table select the gene and value columns, drop the rows whose gene
identifier is null, and build a dict from gene to value in row order
(the dict comprehension keeps the last value for a repeated gene). The
raw table is modelled as the list of (gene column, value column) cells. -/
def Omic.getSourceDict (rows : List (Option String × ℚ)) : List (String × ℚ) :=
  rows.foldl
    (fun acc row =>
      match row.1 with
      | none => acc
      | some g => dictInsert acc g row.2)
    []

/-- The value of the last row carrying the given gene, if any. -/
def lastValueFor (rows : List (Option String × ℚ)) (g : String) : Option ℚ :=
  (rows.filterMap (fun row => if row.1 = some g then some row.2 else none)).getLast?

/-- A source table with a duplicated gene identifier. -/
def demoOmicRows : List (Option String × ℚ) :=
  [(some "MAPT", 1), (none, 5), (some "MAPT", 2)]

/-- C8 counterexample: with a duplicated gene identifier the mapping does
not contain one entry per non-null row — the two MAPT rows collapse into a
single entry. -/
theorem sourceDict_duplicate_gene_counterexample :
    (Omic.getSourceDict demoOmicRows).length ≠
      (demoOmicRows.filter (fun row => row.1.isSome)).length := by
  decide

/-- Helper: the last element of a list with an element in front. -/
theorem getLast?_cons_or {α : Type} (a : α) (l : List α) :
    (a :: l).getLast? = l.getLast?.or (some a) := by
  cases l with
  | nil => rfl
  | cons b bs =>
    rw [List.getLast?_cons_cons]
    cases h : (b :: bs).getLast? with
    | none => simp [List.getLast?_eq_none_iff] at h
    | some v => simp [Option.or]

/-- Helper: unfolding `lastValueFor` one row at a time. -/
theorem lastValueFor_cons (row : Option String × ℚ) (rs : List (Option String × ℚ))
    (g : String) :
    lastValueFor (row :: rs) g =
      (lastValueFor rs g).or (if row.1 = some g then some row.2 else none) := by
  unfold lastValueFor
  rw [List.filterMap_cons]
  by_cases h : row.1 = some g <;> simp [h, getLast?_cons_or]

/-- Helper: lookup in a one-step-extended dict. -/
theorem dictLookup_cons (k : String) (w : ℚ) (rest : List (String × ℚ)) (g : String) :
    dictLookup ((k, w) :: rest) g = if k = g then some w else dictLookup rest g := by
  unfold dictLookup
  by_cases h : k = g
  · rw [List.find?_cons_of_pos _ (by simp [h])]
    simp [h]
  · rw [List.find?_cons_of_neg _ (by simp [h])]
    simp [h]

/-- Helper: lookup after a dict insert. -/
theorem dictLookup_dictInsert (acc : List (String × ℚ)) (g : String) (v : ℚ)
    (g' : String) :
    dictLookup (dictInsert acc g v) g' =
      if g' = g then some v else dictLookup acc g' := by
  induction acc with
  | nil =>
    show dictLookup [(g, v)] g' = _
    rw [dictLookup_cons]
    by_cases h : g' = g
    · rw [if_pos h.symm, if_pos h]
    · rw [if_neg (fun e => h e.symm), if_neg h]
  | cons p rest ih =>
    obtain ⟨k, w⟩ := p
    by_cases hk : k = g
    · subst hk
      have hstep : dictInsert ((k, w) :: rest) k v = (k, v) :: rest := by
        simp [dictInsert]
      rw [hstep, dictLookup_cons, dictLookup_cons]
      by_cases h : g' = k
      · rw [if_pos h.symm, if_pos h]
      · rw [if_neg (fun e => h e.symm), if_neg h, if_neg (fun e => h e.symm)]
    · have hstep : dictInsert ((k, w) :: rest) g v = (k, w) :: dictInsert rest g v := by
        simp [dictInsert, hk]
      rw [hstep, dictLookup_cons, dictLookup_cons]
      by_cases h : k = g'
      · rw [if_pos h, if_neg (fun e => hk (h.trans e)), if_pos h]
      · rw [if_neg h, if_neg h, ih]

/-- Helper: every binding after a dict insert is the inserted one or an
existing one. -/
theorem mem_dictInsert (acc : List (String × ℚ)) (g : String) (v : ℚ)
    (p : String × ℚ) (hp : p ∈ dictInsert acc g v) :
    p = (g, v) ∨ p ∈ acc := by
  induction acc with
  | nil => simpa [dictInsert] using hp
  | cons q rest ih =>
    obtain ⟨k, w⟩ := q
    by_cases hk : k = g
    · subst hk
      rcases (by simpa [dictInsert] using hp : p = (k, v) ∨ p ∈ rest) with h | h
      · exact Or.inl h
      · exact Or.inr (List.mem_cons_of_mem _ h)
    · rcases (by simpa [dictInsert, hk] using hp : p = (k, w) ∨ p ∈ dictInsert rest g v) with h | h
      · exact Or.inr (by simp [h])
      · rcases ih h with h1 | h1
        · exact Or.inl h1
        · exact Or.inr (List.mem_cons_of_mem _ h1)

/-- Helper: keys present after a dict insert. -/
theorem mem_keys_dictInsert (acc : List (String × ℚ)) (g : String) (v : ℚ)
    (x : String) :
    x ∈ (dictInsert acc g v).map Prod.fst ↔ x ∈ acc.map Prod.fst ∨ x = g := by
  induction acc with
  | nil => simp [dictInsert]
  | cons p rest ih =>
    obtain ⟨k, w⟩ := p
    by_cases hk : k = g
    · subst hk
      simp [dictInsert]
      tauto
    · simp [dictInsert, hk, ih]
      tauto

/-- Helper: a dict insert keeps the keys duplicate-free. -/
theorem keys_nodup_dictInsert (acc : List (String × ℚ)) (g : String) (v : ℚ)
    (h : (acc.map Prod.fst).Nodup) :
    ((dictInsert acc g v).map Prod.fst).Nodup := by
  induction acc with
  | nil => simp [dictInsert]
  | cons p rest ih =>
    obtain ⟨k, w⟩ := p
    simp only [List.map_cons, List.nodup_cons] at h
    by_cases hk : k = g
    · subst hk
      have hstep : dictInsert ((k, w) :: rest) k v = (k, v) :: rest := by
        simp [dictInsert]
      rw [hstep]
      simpa using h
    · have hstep : dictInsert ((k, w) :: rest) g v = (k, w) :: dictInsert rest g v := by
        simp [dictInsert, hk]
      rw [hstep, List.map_cons, List.nodup_cons]
      refine ⟨?_, ih h.2⟩
      rw [mem_keys_dictInsert]
      rintro (hx | hx)
      · exact h.1 hx
      · exact hk hx

/-- Helper: the dict built by folding over the rows, looked up at a gene,
yields the last value for that gene when one exists, and otherwise defers
to the accumulator. -/
theorem getSourceDict_fold_lookup (rows : List (Option String × ℚ))
    (acc : List (String × ℚ)) (g : String) :
    dictLookup
      (rows.foldl
        (fun acc row =>
          match row.1 with
          | none => acc
          | some g0 => dictInsert acc g0 row.2)
        acc) g =
      (lastValueFor rows g).or (dictLookup acc g) := by
  induction rows generalizing acc with
  | nil => simp [lastValueFor]
  | cons row rs ih =>
    obtain ⟨g0?, v⟩ := row
    rw [List.foldl_cons, lastValueFor_cons]
    cases g0? with
    | none =>
      simp only []
      rw [ih]
      simp
    | some g0 =>
      simp only []
      rw [ih, dictLookup_dictInsert]
      by_cases h : g = g0
      · subst h
        simp only [if_pos rfl]
        cases hl : lastValueFor rs g <;> simp [Option.or]
      · rw [if_neg h]
        have : (if (some g0 : Option String) = some g then some v else none) = none := by
          simp
          exact fun e => h e.symm
        rw [this]
        cases hl : lastValueFor rs g <;> simp [Option.or]

/-- Helper: the dict built from the rows has duplicate-free keys. -/
theorem getSourceDict_keys_nodup (rows : List (Option String × ℚ)) :
    ((Omic.getSourceDict rows).map Prod.fst).Nodup := by
  suffices h : ∀ acc : List (String × ℚ), (acc.map Prod.fst).Nodup →
      ((rows.foldl
        (fun acc row =>
          match row.1 with
          | none => acc
          | some g0 => dictInsert acc g0 row.2)
        acc).map Prod.fst).Nodup by
    exact h [] (by simp)
  induction rows with
  | nil => exact fun acc hacc => hacc
  | cons row rs ih =>
    intro acc hacc
    obtain ⟨g0?, v⟩ := row
    cases g0? with
    | none => exact ih acc hacc
    | some g0 => exact ih _ (keys_nodup_dictInsert acc g0 v hacc)

/-- Helper: every binding of the dict built from the rows comes from a row
whose gene column is that key. -/
theorem getSourceDict_mem_aux (rows : List (Option String × ℚ)) :
    ∀ (acc : List (String × ℚ)) (p : String × ℚ),
      p ∈ (rows.foldl
        (fun acc row =>
          match row.1 with
          | none => acc
          | some g0 => dictInsert acc g0 row.2)
        acc) → (some p.1, p.2) ∈ rows ∨ p ∈ acc := by
  induction rows with
  | nil => exact fun acc p hmem => Or.inr hmem
  | cons row rs ih =>
    intro acc p hmem
    obtain ⟨g0?, v⟩ := row
    cases g0? with
    | none =>
      rcases ih acc p hmem with h1 | h1
      · exact Or.inl (List.mem_cons_of_mem _ h1)
      · exact Or.inr h1
    | some g0 =>
      rcases ih _ p hmem with h1 | h1
      · exact Or.inl (List.mem_cons_of_mem _ h1)
      · rcases mem_dictInsert acc g0 v p h1 with h2 | h2
        · subst h2
          exact Or.inl (List.mem_cons_self _ _)
        · exact Or.inr h2

/-- Helper: every binding of `get_source_dict` comes from a row whose gene
column is that key. -/
theorem getSourceDict_mem (rows : List (Option String × ℚ))
    (p : String × ℚ) (hp : p ∈ Omic.getSourceDict rows) :
    (some p.1, p.2) ∈ rows := by
  rcases getSourceDict_mem_aux rows [] p hp with h1 | h1
  · exact h1
  · simp at h1

/-- C8 (amended): the mapping returned by `get_source_dict` has exactly one
entry per distinct non-null gene identifier, mapping it to the value of the
last row carrying that gene (a dict comprehension keeps the last of
duplicate keys); every binding stems from a row with a non-null gene, so
null-gene rows contribute nothing. -/
theorem sourceDict_characterization (rows : List (Option String × ℚ)) (g : String) :
    ((Omic.getSourceDict rows).map Prod.fst).Nodup ∧
    dictLookup (Omic.getSourceDict rows) g = lastValueFor rows g ∧
    (∀ p ∈ Omic.getSourceDict rows, (some p.1, p.2) ∈ rows) := by
  refine ⟨getSourceDict_keys_nodup rows, ?_, getSourceDict_mem rows⟩
  have h := getSourceDict_fold_lookup rows [] g
  simpa [Omic.getSourceDict, dictLookup] using h

/-- A node key of a scoring result: the (type, namespace, name) triple the
comparison view unpacks each node into. -/
abbrev Triple := String × String × String

/-- A fixed-width scoring tuple (label-ordered); by convention position 0
is the significance flag and position 3 the median/magnitude value. -/
abbrev Scores := List ℚ

/-- An `Experiment` row (models.py lines 133-190), with the pickled
`result` blob modelled by its parsed contents (a dict from node to scores,
in insertion order) and the nullable `time` column by an optional number
of seconds. -/
structure Experiment where
  id : Nat
  sourceName : String
  permutations : Nat
  public : Bool
  completed : Bool
  result : Option (List (Triple × Scores))
  time : Option ℚ
deriving DecidableEq, Repr

/-- Creation of an experiment with the column defaults (models.py lines
140-158 and the constructor call in the upload view): `completed` defaults
to false, `result` and `time` are unset. -/
def Experiment.create (id : Nat) (sourceName : String) (permutations : Nat)
    (public : Bool) : Experiment :=
  { id := id
    sourceName := sourceName
    permutations := permutations
    public := public
    completed := false
    result := none
    time := none }

/-- Models `Experiment.dump_results` (models.py lines 164-170): pickle the
scores into `result` and set `completed`; no other field is touched. -/
def Experiment.dumpResults (e : Experiment) (scores : List (Triple × Scores)) :
    Experiment :=
  { e with result := some scores, completed := true }

/-- Models the completion step of the `run_cmpa` task (celery_worker.py
lines 300-303): `experiment.result = pickle.dumps(scores)`,
`experiment.completed = True`, then commit; no other experiment field is
written. -/
def Experiment.runCmpaCompletion (e : Experiment) (scores : List (Triple × Scores)) :
    Experiment :=
  { e with result := some scores, completed := true }

/-- A pending demo experiment fresh from the upload view. -/
def demoExperiment : Experiment := Experiment.create 1 "dgx.tsv" 100 false

/-- A demo scoring result. -/
def demoScores : List (Triple × Scores) :=
  [(("Protein", "HGNC", "APP"), [1, 0, 0, 5])]

/-- A second, different demo scoring result. -/
def demoScoresB : List (Triple × Scores) :=
  [(("Protein", "HGNC", "APP"), [1, 0, 0, 6])]

/-- C5 counterexample: completing an experiment (either through
`dump_results` or through the `run_cmpa` completion step) stores the result
and marks it complete but leaves the `time` column unset — the elapsed
wall-clock time is never recorded. -/
theorem completion_leaves_time_unset :
    (Experiment.dumpResults demoExperiment demoScores).time = none ∧
    (Experiment.runCmpaCompletion demoExperiment demoScores).time = none ∧
    (Experiment.dumpResults demoExperiment demoScores).completed = true := by
  decide

/-- C5 (amended): the completion step stores the scoring result as the
experiment's result and sets `completed = true`, but does not record the
elapsed time: the `time` field keeps whatever value it had before. -/
theorem completion_sets_result_and_completed (e : Experiment)
    (scores : List (Triple × Scores)) :
    (Experiment.runCmpaCompletion e scores).result = some scores ∧
    (Experiment.runCmpaCompletion e scores).completed = true ∧
    (Experiment.runCmpaCompletion e scores).time = e.time ∧
    (Experiment.dumpResults e scores).result = some scores ∧
    (Experiment.dumpResults e scores).completed = true ∧
    (Experiment.dumpResults e scores).time = e.time := by
  simp [Experiment.runCmpaCompletion, Experiment.dumpResults]

/-- The operations the model provides on a stored experiment after
creation: completion via `dump_results` or via the `run_cmpa` task. -/
inductive ExperimentOp where
  | dump (scores : List (Triple × Scores))
  | cmpa (scores : List (Triple × Scores))

/-- Effect of an operation on an experiment row. -/
def ExperimentOp.apply (e : Experiment) : ExperimentOp → Experiment
  | .dump scores => e.dumpResults scores
  | .cmpa scores => e.runCmpaCompletion scores

/-- The experiment states reachable through the provided operations,
starting from creation with the column defaults. -/
inductive ExperimentReachable : Experiment → Prop
  | created (id : Nat) (sourceName : String) (permutations : Nat) (public : Bool) :
      ExperimentReachable (Experiment.create id sourceName permutations public)
  | step {e : Experiment} (op : ExperimentOp) :
      ExperimentReachable e → ExperimentReachable (ExperimentOp.apply e op)

/-- C6 counterexample: nothing guards a second completion. A completed
experiment is reachable, and applying `dump_results` again overwrites its
stored result, so the result is not immutable under the provided
operations once `completed` is true. -/
theorem double_completion_overwrites_result :
    ExperimentReachable (Experiment.dumpResults demoExperiment demoScores) ∧
    (Experiment.dumpResults demoExperiment demoScores).completed = true ∧
    (ExperimentOp.apply (Experiment.dumpResults demoExperiment demoScores)
        (ExperimentOp.dump demoScoresB)).result ≠
      (Experiment.dumpResults demoExperiment demoScores).result := by
  refine ⟨?_, by decide, by decide⟩
  exact ExperimentReachable.step (ExperimentOp.dump demoScores)
    (ExperimentReachable.created 1 "dgx.tsv" 100 false)

/-- C6 (amended): in every reachable state the result is unset exactly
while `completed` is false, and `completed` never reverts to false; but a
repeated completion operation overwrites the result of an
already-completed experiment (there is no guard), so immutability of the
result holds only when completion is applied at most once. -/
theorem experiment_reachable_invariant (e : Experiment)
    (h : ExperimentReachable e) :
    (e.result = none ↔ e.completed = false) ∧
    (∀ op : ExperimentOp, (ExperimentOp.apply e op).completed = true) := by
  induction h with
  | created id sourceName permutations public =>
    constructor
    · simp [Experiment.create]
    · intro op
      cases op <;>
        simp [ExperimentOp.apply, Experiment.dumpResults, Experiment.runCmpaCompletion]
  | step op he ih =>
    constructor
    · cases op <;>
        simp [ExperimentOp.apply, Experiment.dumpResults, Experiment.runCmpaCompletion]
    · intro op1
      cases op1 <;>
        simp [ExperimentOp.apply, Experiment.dumpResults, Experiment.runCmpaCompletion]

/-- C6 witness: the invariant instantiated at a freshly created concrete
experiment. -/
theorem experiment_reachable_invariant_witness :
    ((Experiment.create 1 "dgx.tsv" 100 false).result = none ↔
      (Experiment.create 1 "dgx.tsv" 100 false).completed = false) ∧
    (∀ op : ExperimentOp,
      (ExperimentOp.apply (Experiment.create 1 "dgx.tsv" 100 false) op).completed = true) :=
  experiment_reachable_invariant (Experiment.create 1 "dgx.tsv" 100 false)
    (ExperimentReachable.created 1 "dgx.tsv" 100 false)

/-- An outgoing notification email (subject, recipient, body). -/
structure Mail where
  subject : String
  recipient : String
  body : String
deriving DecidableEq, Repr

/-- The state the graph-insert phase of `async_parser` works on: the
transactional session (committed network ids and pending, not yet
committed, flushed rows), the report row fields it touches, the reporting
user's email and the mails sent so far. `insertAttempts` counts calls of
`manager.insert_graph`. -/
structure ParserState where
  committedNetworks : List Nat
  pendingNetworks : List Nat
  reportMessage : Option String
  reportCompleted : Option Bool
  userEmail : String
  mails : List Mail
  insertAttempts : Nat
deriving DecidableEq, Repr

/-- How the external `manager.insert_graph` call ends: a stored network,
or one of the error classes discriminated by the task
(celery_worker.py lines 235-252). -/
inductive InsertOutcome where
  | ok (networkId : Nat)
  | integrityError
  | operationalError
  | otherError (msg : String)
deriving DecidableEq, Repr

/-- Modelled from the spec: the duplicate-insert failure text
(`integrity_message` is defined in `pybel_web/constants.py`, which is not
in the sources; the spec only requires a failure message naming the
colliding network name and version). -/
def integrityMessage (name version : String) : String :=
  "A network with the name " ++ name ++ " and version " ++ version ++
    " already exists"

/-- Rolling back the session discards all pending writes
(`manager.session.rollback()`). -/
def sessionRollback (st : ParserState) : ParserState :=
  { st with pendingNetworks := [] }

/-- Committing the session persists all pending writes
(`manager.session.commit()`). -/
def sessionCommit (st : ParserState) : ParserState :=
  { st with
    committedNetworks := st.committedNetworks ++ st.pendingNetworks
    pendingNetworks := [] }

/-- Models `finish_parsing` inside `async_parser` (celery_worker.py lines
152-158): mail the report's user, store the message on the report row and
commit. -/
def finishParsing (subject message : String) (st : ParserState) : ParserState :=
  sessionCommit
    { st with
      mails := st.mails ++ [{ subject := subject, recipient := st.userEmail, body := message }]
      reportMessage := some message }

/-- Models the graph-insert phase of `async_parser` (celery_worker.py
lines 235-252): one `insert_graph` attempt whose flushed rows join the
pending writes; on success the network is pending for the later commit,
on `IntegrityError` / `OperationalError` / any other error the session is
rolled back and `finish_parsing` reports the failure — each error branch
returns, so the insert is never retried. -/
def asyncParserStore (outcome : InsertOutcome) (flushed : List Nat)
    (graphName graphVersion : String) (st : ParserState) : ParserState :=
  let st1 : ParserState :=
    { st with
      pendingNetworks := st.pendingNetworks ++ flushed
      insertAttempts := st.insertAttempts + 1 }
  match outcome with
  | .ok networkId => { st1 with pendingNetworks := st1.pendingNetworks ++ [networkId] }
  | .integrityError =>
    finishParsing "Upload Failed" (integrityMessage graphName graphVersion)
      (sessionRollback st1)
  | .operationalError =>
    finishParsing "Upload Failed" "Database is locked. Unable to upload."
      (sessionRollback st1)
  | .otherError msg =>
    finishParsing "Upload Failed" ("Error storing in database: " ++ msg)
      (sessionRollback st1)

/-- C9: when inserting the parsed graph raises a duplicate-unique-constraint
integrity error, the transaction is rolled back so no partially written
network row reaches the store (the committed rows are exactly those from
before the task), the submitting user is mailed an upload-failure message
naming the colliding name and version, that message is stored on the
report row, the report is not marked completed, and exactly one insert
attempt is made — no retry. -/
theorem asyncParser_integrity_error_handling (st : ParserState)
    (flushed : List Nat) (graphName graphVersion : String) :
    (asyncParserStore .integrityError flushed graphName graphVersion st).committedNetworks =
      st.committedNetworks ∧
    (asyncParserStore .integrityError flushed graphName graphVersion st).pendingNetworks = [] ∧
    (asyncParserStore .integrityError flushed graphName graphVersion st).reportMessage =
      some (integrityMessage graphName graphVersion) ∧
    (asyncParserStore .integrityError flushed graphName graphVersion st).mails =
      st.mails ++ [{ subject := "Upload Failed",
                     recipient := st.userEmail,
                     body := integrityMessage graphName graphVersion }] ∧
    (asyncParserStore .integrityError flushed graphName graphVersion st).insertAttempts =
      st.insertAttempts + 1 ∧
    (asyncParserStore .integrityError flushed graphName graphVersion st).reportCompleted =
      st.reportCompleted := by
  simp [asyncParserStore, finishParsing, sessionRollback, sessionCommit]

/-- A persisted query row as the cascade sees it: its id and optional
parent id (models.py lines 686-688). -/
structure QueryRow where
  id : Nat
  parentId : Option Nat
deriving DecidableEq, Repr

/-- The children of a row: the rows whose `parent_id` is the given id
(the `children` backref of the `parent` relationship). -/
def childrenOf (db : List QueryRow) (i : Nat) : List QueryRow :=
  db.filter (fun r => decide (r.parentId = some i))

/-- The ids removed by deleting the row with id `i`, gathered recursively
down the `children` relationship as the ORM cascade does; `fuel` bounds
the recursion depth and `db.length` suffices on a forest. -/
def collectCascade (db : List QueryRow) : Nat → Nat → List Nat
  | 0, i => [i]
  | fuel + 1, i =>
    i :: (childrenOf db i).flatMap (fun r => collectCascade db fuel r.id)

/-- Models `session.delete` on a query together with the
`cascade="all, delete-orphan"` setting of the `children` backref
(models.py line 688): the row and, recursively, all its descendants are
deleted. -/
def deleteQuery (db : List QueryRow) (i : Nat) : List QueryRow :=
  db.filter (fun r => decide (r.id ∉ collectCascade db db.length i))

/-- The first row with the given id. -/
def findRow (db : List QueryRow) (i : Nat) : Option QueryRow :=
  db.find? (fun r => decide (r.id = i))

/-- Does the parent chain starting at `j` (inclusive) reach `i` within
`fuel` steps? -/
def chainReaches (db : List QueryRow) : Nat → Nat → Nat → Bool
  | 0, j, i => decide (j = i)
  | fuel + 1, j, i =>
    decide (j = i) ||
      (match findRow db j with
       | none => false
       | some r =>
         match r.parentId with
         | none => false
         | some p => chainReaches db fuel p i)

/-- A downward path of the given length from `i` to `j` along child
edges of the database. -/
inductive DescPath (db : List QueryRow) : Nat → Nat → Nat → Prop where
  | refl (i : Nat) : DescPath db 0 i i
  | step {n i j : Nat} (r : QueryRow) (hr : r ∈ db) (hp : r.parentId = some i)
      (h : DescPath db n r.id j) : DescPath db (n + 1) i j

/-- An upward path of the given length from `j` to `i` along parent
pointers of the database. -/
inductive UpPath (db : List QueryRow) : Nat → Nat → Nat → Prop where
  | refl (j : Nat) : UpPath db 0 j j
  | step {n j i : Nat} (r : QueryRow) (hr : r ∈ db) (hid : r.id = j) (p : Nat)
      (hp : r.parentId = some p) (h : UpPath db n p i) : UpPath db (n + 1) j i

/-- Helper: a zero-length downward path relates a node to itself. -/
theorem descPath_zero_eq {db : List QueryRow} {i j : Nat}
    (h : DescPath db 0 i j) : i = j := by
  cases h
  rfl

/-- Helper: a zero-length upward path relates a node to itself. -/
theorem upPath_zero_eq {db : List QueryRow} {j i : Nat}
    (h : UpPath db 0 j i) : j = i := by
  cases h
  rfl

/-- Helper: membership in the cascade id collection is the existence of a
short-enough downward path. -/
theorem mem_collectCascade (db : List QueryRow) :
    ∀ (fuel i j : Nat),
      j ∈ collectCascade db fuel i ↔ ∃ n ≤ fuel, DescPath db n i j := by
  intro fuel
  induction fuel with
  | zero =>
    intro i j
    constructor
    · intro h
      rcases List.mem_singleton.mp h with rfl
      exact ⟨0, Nat.le_refl 0, DescPath.refl j⟩
    · rintro ⟨n, hn, hpath⟩
      rcases Nat.le_zero.mp hn with rfl
      rcases descPath_zero_eq hpath with rfl
      exact List.mem_singleton.mpr rfl
  | succ fuel ih =>
    intro i j
    rw [collectCascade]
    constructor
    · intro h
      rcases List.mem_cons.mp h with rfl | h
      · exact ⟨0, Nat.zero_le _, DescPath.refl j⟩
      · rcases List.mem_flatMap.mp h with ⟨r, hrc, hmem⟩
        have hr := List.mem_filter.mp hrc
        have hp : r.parentId = some i := of_decide_eq_true hr.2
        rcases (ih r.id j).mp hmem with ⟨n, hn, hpath⟩
        exact ⟨n + 1, Nat.succ_le_succ hn, DescPath.step r hr.1 hp hpath⟩
    · rintro ⟨n, hn, hpath⟩
      cases hpath with
      | refl => exact List.mem_cons_self _ _
      | step r hr hp h =>
        refine List.mem_cons_of_mem _ (List.mem_flatMap.mpr ⟨r, ?_, ?_⟩)
        · exact List.mem_filter.mpr ⟨hr, decide_eq_true hp⟩
        · exact (ih r.id j).mpr ⟨_, Nat.le_of_succ_le_succ hn, h⟩

/-- Helper: extend a downward path by one more child step at its end. -/
theorem descPath_snoc {db : List QueryRow} {n i k : Nat}
    (h : DescPath db n i k) (r : QueryRow) (hr : r ∈ db)
    (hp : r.parentId = some k) : DescPath db (n + 1) i r.id := by
  induction h with
  | refl i => exact DescPath.step r hr hp (DescPath.refl r.id)
  | step r0 hr0 hp0 h ih => exact DescPath.step r0 hr0 hp0 (ih hp)

/-- Helper: extend an upward path by one more parent step at its end. -/
theorem upPath_snoc {db : List QueryRow} {n j k : Nat}
    (h : UpPath db n j k) (r : QueryRow) (hr : r ∈ db) (hid : r.id = k)
    {p : Nat} (hp : r.parentId = some p) : UpPath db (n + 1) j p := by
  induction h with
  | refl j => exact UpPath.step r hr hid p hp (UpPath.refl p)
  | step r0 hr0 hid0 p0 hp0 h ih => exact UpPath.step r0 hr0 hid0 p0 hp0 (ih hid)

/-- Helper: downward paths and upward paths are the same paths read in
opposite directions. -/
theorem descPath_iff_upPath {db : List QueryRow} {n i j : Nat} :
    DescPath db n i j ↔ UpPath db n j i := by
  constructor
  · intro h
    induction h with
    | refl i => exact UpPath.refl i
    | step r hr hp h ih => exact upPath_snoc ih r hr rfl hp
  · intro h
    induction h with
    | refl j => exact DescPath.refl j
    | step r hr hid p hp h ih =>
      have := descPath_snoc ih r hr hp
      rwa [hid] at this

/-- Helper: with duplicate-free ids, `findRow` returns exactly the row
known to carry the id. -/
theorem findRow_eq_of_nodup (db : List QueryRow)
    (hnd : (db.map QueryRow.id).Nodup) (r : QueryRow) (hr : r ∈ db)
    (j : Nat) (hid : r.id = j) : findRow db j = some r := by
  induction db with
  | nil => cases hr
  | cons a rest ih =>
    simp only [List.map_cons, List.nodup_cons] at hnd
    unfold findRow
    by_cases ha : a.id = j
    · rw [List.find?_cons_of_pos _ (by simp [ha])]
      rcases List.mem_cons.mp hr with h | h
      · rw [h]
      · exact absurd (List.mem_map.mpr ⟨r, h, hid.trans ha.symm⟩) hnd.1
    · rw [List.find?_cons_of_neg _ (by simp [ha])]
      rcases List.mem_cons.mp hr with h | h
      · exact absurd (h ▸ hid) ha
      · exact ih hnd.2 h

/-- Helper: the executable parent-chain test is the existence of a
short-enough upward path, for duplicate-free ids. -/
theorem chainReaches_iff (db : List QueryRow)
    (hnd : (db.map QueryRow.id).Nodup) :
    ∀ (fuel j i : Nat),
      chainReaches db fuel j i = true ↔ ∃ n ≤ fuel, UpPath db n j i := by
  intro fuel
  induction fuel with
  | zero =>
    intro j i
    rw [chainReaches]
    constructor
    · intro h
      exact ⟨0, Nat.le_refl 0, of_decide_eq_true h ▸ UpPath.refl j⟩
    · rintro ⟨n, hn, hpath⟩
      rcases Nat.le_zero.mp hn with rfl
      exact decide_eq_true (upPath_zero_eq hpath)
  | succ fuel ih =>
    intro j i
    rw [chainReaches]
    constructor
    · intro h
      rcases Bool.or_eq_true_iff.mp h with h | h
      · exact ⟨0, Nat.zero_le _, of_decide_eq_true h ▸ UpPath.refl j⟩
      · cases hf : findRow db j with
        | none => rw [hf] at h; cases h
        | some r =>
          rw [hf] at h
          have h2 : (match r.parentId with
            | none => false
            | some p => chainReaches db fuel p i) = true := h
          have hf1 : db.find? (fun r => decide (r.id = j)) = some r := hf
          have hr : r ∈ db := List.mem_of_find?_eq_some hf1
          have hpr := List.find?_some hf1
          have hid : r.id = j := by simpa using hpr
          cases hp : r.parentId with
          | none => rw [hp] at h2; cases h2
          | some p =>
            rw [hp] at h2
            rcases (ih p i).mp h2 with ⟨n, hn, hpath⟩
            exact ⟨n + 1, Nat.succ_le_succ hn, UpPath.step r hr hid p hp hpath⟩
    · rintro ⟨n, hn, hpath⟩
      cases hpath with
      | refl => simp
      | step r hr hid p hp h =>
        refine Bool.or_eq_true_iff.mpr (Or.inr ?_)
        rw [findRow_eq_of_nodup db hnd r hr j hid]
        show (match r.parentId with
          | none => false
          | some p => chainReaches db fuel p i) = true
        rw [hp]
        exact (ih p i).mpr ⟨_, Nat.le_of_succ_le_succ hn, h⟩

/-- Helper: an upward path visits, at each step, a row of the database
whose id is the current node; under a measure that strictly drops from
child to parent the visited rows form a strictly-decreasing chain headed
by a row carrying the start id. -/
theorem UpPath.exists_rows {db : List QueryRow} (m : Nat → Nat)
    (hm : ∀ a ∈ db, ∀ b ∈ db, a.parentId = some b.id → m b.id < m a.id) :
    ∀ {n j i : Nat}, UpPath db n j i →
      ∃ rs : List QueryRow, rs.length = n ∧ (∀ x ∈ rs, x ∈ db) ∧
        List.Chain' (fun a b => m b.id < m a.id) rs ∧
        (∀ r0 ∈ rs.head?, r0.id = j) := by
  intro n j i h
  induction h with
  | refl j => exact ⟨[], rfl, by simp, List.chain'_nil, by simp⟩
  | step r hr hid p hp h ih =>
    rcases ih with ⟨rs, hlen, hsub, hchain, hhead⟩
    refine ⟨r :: rs, by simp [hlen], ?_, ?_, ?_⟩
    · intro x hx
      rcases List.mem_cons.mp hx with rfl | hx
      · exact hr
      · exact hsub x hx
    · rw [List.chain'_cons']
      refine ⟨?_, hchain⟩
      intro b hb
      have hb1 : b ∈ rs := List.mem_of_mem_head? hb
      have hbid : b.id = p := hhead b hb
      exact hm r hr b (hsub b hb1) (by rw [hbid]; exact hp)
    · intro r0 hr0
      simp only [List.head?_cons, Option.mem_def, Option.some.injEq] at hr0
      rw [← hr0, hid]

/-- Helper: under duplicate-free ids and a child-to-parent decreasing
measure, every upward path is no longer than the database. -/
theorem UpPath.length_le {db : List QueryRow} (m : Nat → Nat)
    (hm : ∀ a ∈ db, ∀ b ∈ db, a.parentId = some b.id → m b.id < m a.id)
    {n j i : Nat} (h : UpPath db n j i) : n ≤ db.length := by
  rcases UpPath.exists_rows m hm h with ⟨rs, hlen, hsub, hchain, _⟩
  haveI : IsTrans QueryRow (fun a b => m b.id < m a.id) :=
    ⟨fun a b c hab hbc => lt_trans hbc hab⟩
  have hpw : rs.Pairwise (fun a b => m b.id < m a.id) :=
    List.chain'_iff_pairwise.mp hchain
  have hnodup : rs.Nodup := by
    refine hpw.imp ?_
    intro a b hab
    intro e
    rw [e] at hab
    exact lt_irrefl _ hab
  have hcard : rs.length ≤ db.length := by
    calc rs.length = rs.toFinset.card := (List.toFinset_card_of_nodup hnodup).symm
    _ ≤ db.toFinset.card := by
        refine Finset.card_le_card ?_
        intro x hx
        rw [List.mem_toFinset] at hx ⊢
        exact hsub x hx
    _ ≤ db.length := db.toFinset_card_le
  rw [← hlen]
  exact hcard

/-- The concrete forest of the regression test
`test_drop_query_cascade_to_parent` (test_manager.py lines 127-163):
q1, q2 with parent q1, q3 with parent q2, and an independent q4. -/
def demoQueryForest : List QueryRow :=
  [{ id := 1, parentId := none },
   { id := 2, parentId := some 1 },
   { id := 3, parentId := some 2 },
   { id := 4, parentId := none }]

/-- C2: over any forest of query rows (duplicate-free ids and a measure
that strictly drops from child to parent, i.e. no parent cycles), a row
survives the cascading delete of the row with id `i` exactly when it was
present before and its parent chain does not reach `i`; so the delete
removes exactly the target and its descendants. On the concrete test
forest, deleting q1 removes q1, q2 and q3 and leaves q4. -/
theorem deleteQuery_cascade_characterization :
    (∀ (db : List QueryRow) (m : Nat → Nat),
      (db.map QueryRow.id).Nodup →
      (∀ a ∈ db, ∀ b ∈ db, a.parentId = some b.id → m b.id < m a.id) →
      ∀ (i : Nat) (r : QueryRow),
        (r ∈ deleteQuery db i ↔
          (r ∈ db ∧ chainReaches db db.length r.id i = false))) ∧
    deleteQuery demoQueryForest 1 = [{ id := 4, parentId := none }] := by
  constructor
  · intro db m hnd hm i r
    rw [deleteQuery, List.mem_filter]
    constructor
    · rintro ⟨hmem, hdec⟩
      refine ⟨hmem, ?_⟩
      have hnot : r.id ∉ collectCascade db db.length i := of_decide_eq_true hdec
      rw [Bool.eq_false_iff]
      intro hreach
      rcases (chainReaches_iff db hnd db.length r.id i).mp hreach with ⟨n, hn, hup⟩
      exact hnot ((mem_collectCascade db db.length i r.id).mpr
        ⟨n, hn, descPath_iff_upPath.mpr hup⟩)
    · rintro ⟨hmem, hreach⟩
      refine ⟨hmem, decide_eq_true ?_⟩
      intro hin
      rcases (mem_collectCascade db db.length i r.id).mp hin with ⟨n, _, hdesc⟩
      have hup := descPath_iff_upPath.mp hdesc
      have hlen : n ≤ db.length := UpPath.length_le m hm hup
      have := (chainReaches_iff db hnd db.length r.id i).mpr ⟨n, hlen, hup⟩
      rw [hreach] at this
      cases this
  · decide

/-- C2 witness: the characterization applied to the concrete test forest
with the identity measure, at the independent query q4. -/
theorem deleteQuery_cascade_characterization_witness :
    ({ id := 4, parentId := none } : QueryRow) ∈ deleteQuery demoQueryForest 1 ↔
      (({ id := 4, parentId := none } : QueryRow) ∈ demoQueryForest ∧
        chainReaches demoQueryForest demoQueryForest.length
          ({ id := 4, parentId := none } : QueryRow).id 1 = false) :=
  deleteQuery_cascade_characterization.1 demoQueryForest (fun x => x)
    (by decide) (by decide) 1 { id := 4, parentId := none }

/-- The significance flag of a scoring tuple: position 0 of the
label-ordered result tuple. Python truthiness of the number is being
nonzero. -/
def sigOf (scores : Scores) : ℚ :=
  scores.getD 0 0

/-- The median/magnitude value of a scoring tuple: position 3
(`values[3]` in experiment_service.py line 325). -/
def medianOf (scores : Scores) : ℚ :=
  scores.getD 3 0

/-- Models `Experiment.get_data_list` (models.py lines 176-182) on a
parsed result: keep the (node, scores) items whose `scores[0]` is truthy,
in stored order. -/
def getDataListOf (res : List (Triple × Scores)) : List (Triple × Scores) :=
  res.filter (fun p => decide (sigOf p.2 ≠ 0))

/-- `Experiment.get_data_list`; the source unpickles `self.result` (its
callers guard against an absent result, modelled by `getD []`). -/
def Experiment.getDataList (e : Experiment) : List (Triple × Scores) :=
  getDataListOf (e.result.getD [])

/-- Appending a value under a key of the `entries` table
(`defaultdict(list)` in experiment_service.py line 316): extend the list
of an existing key in place, or add the key at the end. -/
def appendToKey (es : List (Triple × List ℚ)) (t : Triple) (v : ℚ) :
    List (Triple × List ℚ) :=
  match es with
  | [] => [(t, [v])]
  | (k, vs) :: rest =>
    if k = t then (k, vs ++ [v]) :: rest else (k, vs) :: appendToKey rest t v

/-- The `entries` accumulation of `get_dataframe_from_experiments`
(experiment_service.py lines 316-326): experiments with no result are
skipped; for the others every significant (node, scores) item appends its
median to the node's list. The source iterates each experiment's items in
sorted order, which only permutes the first-appearance order of rows and
is immaterial to the per-key contents; rows are looked up by key below. -/
def buildEntries (exps : List Experiment) : List (Triple × List ℚ) :=
  exps.foldl
    (fun acc e =>
      match e.result with
      | none => acc
      | some res =>
        (getDataListOf res).foldl (fun a p => appendToKey a p.1 (medianOf p.2)) acc)
    []

/-- One value column per experiment that carries a result
(experiment_service.py lines 318-322). -/
def numValueCols (exps : List Experiment) : Nat :=
  (exps.filter (fun e => e.result.isSome)).length

/-- Rounding to four decimal digits (`df.round(4)`), as round-half-up on
rationals; pandas rounds floats half-to-even, but exact halfway cases do
not arise for the binary floats involved. -/
def round4 (q : ℚ) : ℚ :=
  ((⌊q * 10000 + 1 / 2⌋ : ℤ) : ℚ) / 10000

/-- Padding a row's value list to the number of experiment columns: the
DataFrame constructor leaves missing trailing cells NaN and `fillna(0)`
turns them into zeros (experiment_service.py lines 328-334). -/
def padTo (n : Nat) (vs : List ℚ) : List ℚ :=
  vs ++ List.replicate (n - vs.length) 0

/-- Models `get_dataframe_from_experiments` (experiment_service.py lines
305-349) on the default export path (no normalization, no clustering):
the table keyed by (type, namespace, name) with the per-experiment value
lists zero-padded and rounded. -/
def getDataframeFromExperiments (exps : List Experiment) :
    List (Triple × List ℚ) :=
  (buildEntries exps).map
    (fun p => (p.1, (padTo (numValueCols exps) p.2).map round4))

/-- A row of the table by its (type, namespace, name) key. -/
def rowLookup (table : List (Triple × List ℚ)) (t : Triple) :
    Option (List ℚ) :=
  (table.find? (fun p => decide (p.1 = t))).map Prod.snd

/-- The medians recorded for a triple across the experiments, in
experiment order, one per experiment whose (significance-filtered) data
list contains the triple. -/
def mediansOf (exps : List Experiment) (t : Triple) : List ℚ :=
  exps.flatMap
    (fun e =>
      match e.result with
      | none => []
      | some res =>
        ((getDataListOf res).filter (fun p => decide (p.1 = t))).map
          (fun p => medianOf p.2))

/-- Following the claim's words (a refinement target, not translated from
the source): the row of a triple carries one entry per experiment, the
experiment's rounded median when the triple is significant there, and 0.0
in the column of each experiment missing the triple. -/
def specAlignedRow (exps : List Experiment) (t : Triple) : List ℚ :=
  (exps.filter (fun e => e.result.isSome)).map
    (fun e =>
      match (getDataListOf (e.result.getD [])).find? (fun p => decide (p.1 = t)) with
      | some p => round4 (medianOf p.2)
      | none => 0)

/-- A triple present in only the second demo experiment. -/
def demoTripleA : Triple := ("Protein", "HGNC", "APP")

/-- A triple present in both demo experiments. -/
def demoTripleB : Triple := ("Protein", "HGNC", "MAPT")

/-- First demo experiment: scores only the second triple. -/
def demoExpOne : Experiment :=
  { id := 1
    sourceName := "one.tsv"
    permutations := 100
    public := false
    completed := true
    result := some [(demoTripleB, [1, 0, 0, 5])]
    time := none }

/-- Second demo experiment: scores both triples. -/
def demoExpTwo : Experiment :=
  { id := 2
    sourceName := "two.tsv"
    permutations := 100
    public := false
    completed := true
    result := some [(demoTripleA, [1, 0, 0, 7]), (demoTripleB, [1, 0, 0, 9])]
    time := none }

/-- A demo experiment whose only triple has a falsy significance flag. -/
def demoExpInsignificant : Experiment :=
  { id := 3
    sourceName := "three.tsv"
    permutations := 100
    public := false
    completed := true
    result := some [(demoTripleA, [0, 0, 0, 11])]
    time := none }

/-- Helper: combining a row's previous value list with the medians one
experiment pass adds: nothing when no medians, otherwise the extended
list (a fresh `defaultdict` entry starts from the empty list). -/
def extendRow (prev : Option (List ℚ)) (ms : List ℚ) : Option (List ℚ) :=
  match ms with
  | [] => prev
  | _ => some (prev.getD [] ++ ms)

/-- Helper: extending an already-extended row flattens to one extension. -/
theorem extendRow_extendRow (x : Option (List ℚ)) (ms1 ms2 : List ℚ) :
    extendRow (extendRow x ms1) ms2 = extendRow x (ms1 ++ ms2) := by
  cases ms1 with
  | nil => simp [extendRow]
  | cons a l =>
    cases ms2 with
    | nil => simp [extendRow]
    | cons b l2 =>
      show some ((some (x.getD [] ++ (a :: l))).getD [] ++ (b :: l2)) = _
      simp [extendRow]

/-- Helper: row lookup through the value-transforming map of the table. -/
theorem rowLookup_map (es : List (Triple × List ℚ)) (f : List ℚ → List ℚ)
    (t : Triple) :
    rowLookup (es.map (fun p => (p.1, f p.2))) t = (rowLookup es t).map f := by
  induction es with
  | nil => simp [rowLookup]
  | cons p rest ih =>
    by_cases h : p.1 = t
    · simp [rowLookup, List.find?_cons_of_pos, h]
    · unfold rowLookup at ih ⊢
      rw [List.map_cons, List.find?_cons_of_neg _ (by simp [h]),
        List.find?_cons_of_neg _ (by simp [h])]
      exact ih

/-- Helper: row lookup after appending a value under a key. -/
theorem rowLookup_appendToKey (es : List (Triple × List ℚ)) (t : Triple)
    (v : ℚ) (t' : Triple) :
    rowLookup (appendToKey es t v) t' =
      if t' = t then some ((rowLookup es t').getD [] ++ [v])
      else rowLookup es t' := by
  induction es with
  | nil =>
    show rowLookup [(t, [v])] t' = _
    rw [rowLookup]
    by_cases h : t' = t
    · rw [List.find?_cons_of_pos _ (by simp [h.symm]), if_pos h]
      simp [rowLookup]
    · have hne : ¬t = t' := fun e => h e.symm
      rw [List.find?_cons_of_neg _ (by simp [hne]), if_neg h]
      simp [rowLookup]
  | cons p rest ih =>
    obtain ⟨k, vs⟩ := p
    by_cases hk : k = t
    · subst hk
      have hstep : appendToKey ((k, vs) :: rest) k v = (k, vs ++ [v]) :: rest := by
        simp [appendToKey]
      rw [hstep]
      by_cases h : t' = k
      · subst h
        unfold rowLookup
        rw [List.find?_cons_of_pos _ (by simp), List.find?_cons_of_pos _ (by simp),
          if_pos rfl]
        simp
      · have hne : ¬k = t' := fun e => h e.symm
        unfold rowLookup
        rw [List.find?_cons_of_neg _ (by simp [hne]),
          List.find?_cons_of_neg _ (by simp [hne]), if_neg h]
    · have hstep : appendToKey ((k, vs) :: rest) t v = (k, vs) :: appendToKey rest t v := by
        simp [appendToKey, hk]
      rw [hstep]
      by_cases h : t' = k
      · subst h
        unfold rowLookup
        rw [List.find?_cons_of_pos _ (by simp), List.find?_cons_of_pos _ (by simp),
          if_neg hk]
      · have hne : ¬k = t' := fun e => h e.symm
        unfold rowLookup at ih ⊢
        rw [List.find?_cons_of_neg _ (by simp [hne]),
          List.find?_cons_of_neg _ (by simp [hne])]
        exact ih

/-- Helper: extending a just-extended row places the new medians after
the earlier ones. -/
theorem extendRow_snoc (xs : List ℚ) (v : ℚ) (ms : List ℚ) :
    extendRow (some (xs ++ [v])) ms = some (xs ++ v :: ms) := by
  cases ms <;> simp [extendRow]

/-- Helper: one experiment pass over the entries appends, to each key,
the medians of its significant items carrying that key. -/
theorem rowLookup_expFold (l : List (Triple × Scores)) :
    ∀ (acc : List (Triple × List ℚ)) (t : Triple),
      rowLookup (l.foldl (fun a p => appendToKey a p.1 (medianOf p.2)) acc) t =
        extendRow (rowLookup acc t)
          ((l.filter (fun p => decide (p.1 = t))).map (fun p => medianOf p.2)) := by
  induction l with
  | nil => intro acc t; simp [extendRow]
  | cons p rest ih =>
    intro acc t
    rw [List.foldl_cons]
    by_cases hp : p.1 = t
    · rw [List.filter_cons_of_pos (by simp [hp]), List.map_cons, ih,
        rowLookup_appendToKey]
      rw [if_pos hp.symm, extendRow_snoc]
      rfl
    · rw [List.filter_cons_of_neg (by simp [hp]), ih, rowLookup_appendToKey,
        if_neg (fun e => hp e.symm)]

/-- Helper: the entries accumulated over a list of experiments extend
each key's row by the medians collected across those experiments. -/
theorem rowLookup_buildEntries_aux (exps : List Experiment) :
    ∀ (acc : List (Triple × List ℚ)) (t : Triple),
      rowLookup
        (exps.foldl
          (fun acc e =>
            match e.result with
            | none => acc
            | some res =>
              (getDataListOf res).foldl (fun a p => appendToKey a p.1 (medianOf p.2)) acc)
          acc) t =
        extendRow (rowLookup acc t) (mediansOf exps t) := by
  induction exps with
  | nil => intro acc t; simp [mediansOf, extendRow]
  | cons e rest ih =>
    intro acc t
    rw [List.foldl_cons]
    unfold mediansOf
    rw [List.flatMap_cons]
    cases hres : e.result with
    | none =>
      simp only [hres]
      rw [List.nil_append]
      exact ih acc t
    | some res =>
      simp only [hres]
      rw [ih, rowLookup_expFold, extendRow_extendRow]
      rfl

/-- Helper: a key's row in the raw entries is exactly its collected
medians, present exactly when some experiment recorded one. -/
theorem rowLookup_buildEntries (exps : List Experiment) (t : Triple) :
    rowLookup (buildEntries exps) t =
      if mediansOf exps t = [] then none else some (mediansOf exps t) := by
  have h := rowLookup_buildEntries_aux exps [] t
  rw [buildEntries]
  rw [h]
  have hnone : rowLookup [] t = none := rfl
  rw [hnone]
  cases hms : mediansOf exps t with
  | nil => simp [extendRow]
  | cons a l => simp [extendRow]

/-- Helper: keys present after appending a value under a key. -/
theorem mem_keys_appendToKey (es : List (Triple × List ℚ)) (t : Triple)
    (v : ℚ) (x : Triple) :
    x ∈ (appendToKey es t v).map Prod.fst ↔ x ∈ es.map Prod.fst ∨ x = t := by
  induction es with
  | nil => simp [appendToKey]
  | cons p rest ih =>
    obtain ⟨k, vs⟩ := p
    by_cases hk : k = t
    · subst hk
      simp [appendToKey]
      tauto
    · simp [appendToKey, hk, ih]
      tauto

/-- Helper: appending a value under a key keeps the keys
duplicate-free. -/
theorem keys_nodup_appendToKey (es : List (Triple × List ℚ)) (t : Triple)
    (v : ℚ) (h : (es.map Prod.fst).Nodup) :
    ((appendToKey es t v).map Prod.fst).Nodup := by
  induction es with
  | nil => simp [appendToKey]
  | cons p rest ih =>
    obtain ⟨k, vs⟩ := p
    simp only [List.map_cons, List.nodup_cons] at h
    by_cases hk : k = t
    · subst hk
      have hstep : appendToKey ((k, vs) :: rest) k v = (k, vs ++ [v]) :: rest := by
        simp [appendToKey]
      rw [hstep]
      simpa using h
    · have hstep : appendToKey ((k, vs) :: rest) t v = (k, vs) :: appendToKey rest t v := by
        simp [appendToKey, hk]
      rw [hstep, List.map_cons, List.nodup_cons]
      refine ⟨?_, ih h.2⟩
      rw [mem_keys_appendToKey]
      rintro (hx | hx)
      · exact h.1 hx
      · exact hk hx

/-- Helper: one experiment pass keeps the entry keys duplicate-free. -/
theorem keys_nodup_expFold (l : List (Triple × Scores)) :
    ∀ acc : List (Triple × List ℚ), (acc.map Prod.fst).Nodup →
      ((l.foldl (fun a p => appendToKey a p.1 (medianOf p.2)) acc).map Prod.fst).Nodup := by
  induction l with
  | nil => exact fun acc h => h
  | cons p ps ih =>
    intro acc h
    rw [List.foldl_cons]
    exact ih _ (keys_nodup_appendToKey acc p.1 (medianOf p.2) h)

/-- Helper: the accumulated entries keep duplicate-free keys. -/
theorem keys_nodup_buildEntries (exps : List Experiment) :
    ((buildEntries exps).map Prod.fst).Nodup := by
  rw [buildEntries]
  suffices h : ∀ (l : List Experiment) (acc : List (Triple × List ℚ)),
      (acc.map Prod.fst).Nodup →
      ((l.foldl
        (fun acc e =>
          match e.result with
          | none => acc
          | some res =>
            (getDataListOf res).foldl (fun a p => appendToKey a p.1 (medianOf p.2)) acc)
        acc).map Prod.fst).Nodup by
    exact h exps [] (by simp)
  intro l
  induction l with
  | nil => exact fun acc hacc => hacc
  | cons e rest ih =>
    intro acc hacc
    rw [List.foldl_cons]
    cases hres : e.result with
    | none =>
      simp only [hres]
      exact ih acc hacc
    | some res =>
      simp only [hres]
      exact ih _ (keys_nodup_expFold (getDataListOf res) acc hacc)

/-- C3 counterexample: with a triple absent from the first experiment but
scored 7 by the second, the exported row carries the 7 in the first
experiment's column and a 0 in the second's — the value does not appear in
the column of the experiment that produced it, because values are appended
left to right and only the trailing cells are zero-filled. -/
theorem dataframe_misaligned_counterexample :
    rowLookup (getDataframeFromExperiments [demoExpOne, demoExpTwo]) demoTripleA =
      some [7, 0] ∧
    specAlignedRow [demoExpOne, demoExpTwo] demoTripleA = [0, 7] ∧
    rowLookup (getDataframeFromExperiments [demoExpOne, demoExpTwo]) demoTripleA ≠
      some (specAlignedRow [demoExpOne, demoExpTwo] demoTripleA) := by
  have h1 : rowLookup (getDataframeFromExperiments [demoExpOne, demoExpTwo]) demoTripleA =
      some [7, 0] := by
    simp only [rowLookup, getDataframeFromExperiments, buildEntries, getDataListOf,
      demoExpOne, demoExpTwo, demoTripleA, demoTripleB, sigOf, medianOf, appendToKey,
      numValueCols, padTo, round4, List.filter, List.foldl, List.find?, List.map,
      List.length, List.getD, Option.getD, Option.map, Option.isSome]
    norm_num
    simp
  have h2 : specAlignedRow [demoExpOne, demoExpTwo] demoTripleA = [0, 7] := by
    simp only [specAlignedRow, getDataListOf, demoExpOne, demoExpTwo, demoTripleA,
      demoTripleB, sigOf, medianOf, round4, List.filter, List.find?, List.map,
      List.getD, Option.getD, Option.isSome]
    norm_num
    simp
  refine ⟨h1, h2, ?_⟩
  rw [h1, h2]
  decide

/-- C3 (amended): the exported table has exactly one row per distinct
(type, namespace, name) triple appearing in some experiment's
significance-filtered data, and the row of a triple consists of its
medians in the order of the experiments that contain it, packed to the
left, zero-filled only in the trailing cells up to one value column per
experiment, all rounded to four decimal digits. A value therefore lands
in the column of the experiment that produced it only when every earlier
experiment also scored the triple. -/
theorem dataframe_characterization (exps : List Experiment) (t : Triple) :
    ((getDataframeFromExperiments exps).map Prod.fst).Nodup ∧
    rowLookup (getDataframeFromExperiments exps) t =
      (if mediansOf exps t = [] then none
       else some ((padTo (numValueCols exps) (mediansOf exps t)).map round4)) := by
  constructor
  · have hkeys : (getDataframeFromExperiments exps).map Prod.fst =
        (buildEntries exps).map Prod.fst := by
      rw [getDataframeFromExperiments, List.map_map]
      rfl
    rw [hkeys]
    exact keys_nodup_buildEntries exps
  · rw [getDataframeFromExperiments,
      rowLookup_map (buildEntries exps) (fun vs => (padTo (numValueCols exps) vs).map round4) t,
      rowLookup_buildEntries]
    by_cases hms : mediansOf exps t = [] <;> simp [hms]

/-- C10: `get_data_list` returns exactly the stored (node, scores) pairs
whose significance flag (position 0) is truthy; consequently a triple all
of whose stored scores carry a falsy significance flag contributes no row
to the comparison table, even though its magnitude sits in the stored
result. -/
theorem getDataList_filters_significance :
    (∀ (res : List (Triple × Scores)) (p : Triple × Scores),
        p ∈ getDataListOf res ↔ (p ∈ res ∧ sigOf p.2 ≠ 0)) ∧
    (∀ (exps : List Experiment) (t : Triple),
        (∀ e ∈ exps, ∀ p ∈ e.result.getD [], p.1 = t → sigOf p.2 = 0) →
        rowLookup (getDataframeFromExperiments exps) t = none) := by
  constructor
  · intro res p
    rw [getDataListOf, List.mem_filter]
    simp
  · intro exps t hall
    have hms : mediansOf exps t = [] := by
      rw [mediansOf, List.flatMap_eq_nil_iff]
      intro e he
      cases hres : e.result with
      | none => rfl
      | some res =>
        simp only [hres]
        rw [List.map_eq_nil_iff, List.filter_eq_nil_iff]
        intro p hp
        have hmem := List.mem_filter.mp hp
        have hsig : sigOf p.2 ≠ 0 := by
          have := hmem.2
          simpa using this
        simp only [decide_eq_true_eq]
        intro hpt
        exact hsig (hall e he p (by rw [hres]; exact hmem.1) hpt)
    rw [getDataframeFromExperiments,
      rowLookup_map (buildEntries exps) (fun vs => (padTo (numValueCols exps) vs).map round4) t,
      rowLookup_buildEntries, hms]
    simp

/-- C10 witness: the filtering theorem applied to a concrete experiment
whose only triple has significance flag 0 — the table has no row for it. -/
theorem getDataList_filters_significance_witness :
    rowLookup (getDataframeFromExperiments [demoExpInsignificant]) demoTripleA = none :=
  getDataList_filters_significance.2 [demoExpInsignificant] demoTripleA (by decide)

/-- C8 witness: the characterization instantiated on the concrete demo
table, with the membership hypothesis of the origin conjunct discharged
at the binding the duplicate rows collapse to. -/
theorem sourceDict_characterization_witness :
    dictLookup (Omic.getSourceDict demoOmicRows) "MAPT" =
      lastValueFor demoOmicRows "MAPT" ∧
    ((some "MAPT", (2 : ℚ)) : Option String × ℚ) ∈ demoOmicRows :=
  ⟨(sourceDict_characterization demoOmicRows "MAPT").2.1,
   (sourceDict_characterization demoOmicRows "MAPT").2.2 ("MAPT", 2) (by decide)⟩
